import Mathlib

/-!
Shallow embedding of the script dispatcher in `src/cli/commands/run.js`
(the `run` command of a package-script runner): script-table construction,
action resolution with lifecycle hooks, the fuzzy-suggestion fallback, and
the no-argument listing fallback, together with theorems about them.

JS data is modelled as follows: a `Map<string, string>` / plain object is an
association list in insertion order, a `Set<string>` is a duplicate-free list
in insertion order, `null`/`undefined` manifests as `Option`, and a thrown
exception as an `Except` error or an explicit outcome constructor.
-/

namespace YarnRun

/-- A JS `Map<string, string>` (or plain string-valued object), as an
association list in insertion order. -/
abbrev SMap := List (String × String)

/-- Models `Map.prototype.get` / object key lookup: the value at the first
(for a real JS map, only) binding of the key. -/
def mapGet : SMap → String → Option String
  | [], _ => none
  | p :: ps, k => if p.1 = k then some p.2 else mapGet ps k

/-- Models `Map.prototype.set`: replace the binding of the key in place, or
append a new binding at the end. -/
def mapSet : SMap → String → String → SMap
  | [], k, v => [(k, v)]
  | p :: ps, k, v => if p.1 = k then (k, v) :: ps else p :: mapSet ps k v

/-- Models `Map.prototype.has` and the JS `in` operator on the manifest's
scripts object. -/
def hasKey (m : SMap) (k : String) : Bool := (mapGet m k).isSome

/-- Models `obj[k]` for a key that is present (an absent key yields `""`;
the source guards every such access with `in`, so this default is inert). -/
def jsGet (m : SMap) (k : String) : String := (mapGet m k).getD ""

/-- Models `pkgScripts[name] || ''` (line 77 of the source): a falsy — for a
string, empty — script body is replaced by the empty string. -/
def jsOrEmptyStr (s : String) : String := if s = "" then "" else s

/-- Models `Set.prototype.add` on a set kept as an insertion-ordered list. -/
def setAdd (s : List String) (x : String) : List String :=
  if x ∈ s then s else s ++ [x]

/-- Characters that the shell quoter passes through unquoted. -/
def shellSafeChar (c : Char) : Bool :=
  c.isAlphanum || c = '/' || c = '.' || c = '-' || c = '+' ||
    c = ',' || c = ':' || c = '@' || c = '%' || c = '_'

/-- The single-quote character, as a string. -/
def squote : String := String.singleton (Char.ofNat 39)

/-- Models the external `puka` library's `quoteForShell` (an external
collaborator of the source, out of scope per the spec §1/§6): a nonempty word
of shell-safe characters passes through unchanged, anything else is wrapped in
single quotes (inner-quote escaping elided; no input considered here needs it). -/
def quoteForShell (s : String) : String :=
  if s ≠ "" && s.toList.all shellSafeChar then s else squote ++ s ++ squote

/-- Lexicographic comparison of character lists by code point. -/
def charListLe : List Char → List Char → Bool
  | [], _ => true
  | _ :: _, [] => false
  | a :: as, b :: bs =>
    if a.toNat < b.toNat then true
    else if b.toNat < a.toNat then false
    else charListLe as bs

/-- The comparison JS's default `Array.prototype.sort` applies to strings:
lexicographic on code units (identical to code points for the names involved
here). -/
def strLeJs (a b : String) : Bool := charListLe a.toList b.toList

/-- Insert a string into a sorted list of strings. -/
def insertSorted (x : String) : List String → List String
  | [] => [x]
  | y :: ys => if strLeJs x y then x :: y :: ys else y :: insertSorted x ys

/-- Models `Object.keys(pkgScripts).sort()` by insertion sort. -/
def sortStrings (l : List String) : List String := l.foldr insertSorted []

/-- One candidate executable directory: its path, whether `fs.exists` reports
it (a missing directory is skipped silently), and its `fs.readdir` entries. -/
structure BinDir where
  path : String
  dirExists : Bool
  entries : List String
  deriving DecidableEq

/-- The state built up by the table-construction phase (lines 58-80):
the `scripts` map plus the `binCommands` and `pkgCommands` name sets. -/
structure TableState where
  scripts : SMap
  binCommands : List String
  pkgCommands : List String
  deriving DecidableEq

/-- Lines 64-71: for one existing directory, each entry name is mapped to the
shell-quoted joined path (`path.join(binFolder, name)`, POSIX join modelled as
slash concatenation) and added to `binCommands`. -/
def addBinDir (st : TableState) (d : BinDir) : TableState :=
  if d.dirExists then
    d.entries.foldl
      (fun st name =>
        { st with
          scripts := mapSet st.scripts name (quoteForShell (d.path ++ "/" ++ name))
          binCommands := setAdd st.binCommands name })
      st
  else st

/-- Lines 75-80: each manifest script key, in sorted order, overwrites the
table entry with `pkgScripts[name] || ''` and is added to `pkgCommands`. -/
def addManifestScripts (st : TableState) (ps : SMap) : TableState :=
  (sortStrings (ps.map Prod.fst)).foldl
    (fun st name =>
      { st with
        scripts := mapSet st.scripts name (jsOrEmptyStr (jsGet ps name))
        pkgCommands := setAdd st.pkgCommands name })
    st

/-- The whole table-construction phase: fold the executable directories, then
overlay the manifest scripts when `pkg.scripts` is present. -/
def buildTable (binDirs : List BinDir) (pkgScripts : Option SMap) : TableState :=
  let st := binDirs.foldl addBinDir { scripts := [], binCommands := [], pkgCommands := [] }
  match pkgScripts with
  | some ps => addManifestScripts st ps
  | none => st

/-- One inner step of the Levenshtein dynamic program: given the previous row
(for prefixes of `bs`) and the current row's first cell, produce the current
row. -/
def levenRowGo (x : Char) : List Char → List Nat → Nat → List Nat
  | b :: bs, p0 :: p1 :: ps, c0 =>
    let c1 := Nat.min (Nat.min (c0 + 1) (p1 + 1)) (p0 + (if x = b then 0 else 1))
    c0 :: levenRowGo x bs (p1 :: ps) c1
  | _, _, c0 => [c0]

/-- Levenshtein distance on character lists by row-wise dynamic programming. -/
def levenChars (as bs : List Char) : Nat :=
  let row0 := List.range (bs.length + 1)
  let finalRow := as.foldl (fun prev x => levenRowGo x bs prev (prev.headD 0 + 1)) row0
  finalRow.getLastD 0

/-- Models the external `leven` package: the Levenshtein edit distance
(minimum number of single-character inserts, deletes and substitutions). -/
def leven (a b : String) : Nat := levenChars a.toList b.toList

/-- The keys a JS `for..in` loop enumerates over the `scripts` value
(line 126 of the source). `scripts` is a `Map`; its entries live in internal
slots, not in enumerable properties, so `for..in` enumerates nothing. -/
def forInKeysOfMap (_m : SMap) : List String := ([] : List String)

/-- The source's suggestion loop (lines 124-131): fold over the names the
`for..in` loop enumerates, keeping the last one whose edit distance to the
attempted action is strictly below 2. -/
def computeSuggestion (scripts : SMap) (action : String) : Option String :=
  (forInKeysOfMap scripts).foldl
    (fun suggestion commandName =>
      if leven commandName action < 2 then some commandName else suggestion)
    none

/-- Modelled from the spec: the SuggestionEngine contract (§4.4) — examine
every known name (the script table's keys) and keep the last whose edit
distance to the attempted action is strictly below 2. The source's loop is a
`for..in` over a JS `Map` and therefore enumerates no names at all; this
definition records the documented intent, for comparison with the source's
`computeSuggestion`. -/
def suggestionIntended (scripts : SMap) (attempted : String) : Option String :=
  (scripts.map Prod.fst).foldl
    (fun suggestion commandName =>
      if leven commandName attempted < 2 then some commandName else suggestion)
    none

/-- Models `JSON.stringify` on the plain names involved here (no characters
that need escaping): wrap in double quotes. -/
def jsonStringify (s : String) : String := "\x22" ++ s ++ "\x22"

/-- Lines 133-136: the not-found message, with truthiness of `suggestion`
modelled faithfully (an empty-string suggestion would be falsy). -/
def notFoundMessage (scripts : SMap) (action : String) : String :=
  let msg := "Command " ++ jsonStringify action ++ " not found."
  match computeSuggestion scripts action with
  | some s => if s ≠ "" then msg ++ " Did you mean " ++ jsonStringify s ++ "?" else msg
  | none => msg

/-- Lines 88-101: the manifest-action branch of `runCommand`. The `pre` hook
command comes straight from `pkgScripts`, the main command from the (possibly
overwritten) `scripts` table; `invariant(script, ...)` throws when the looked
up value is absent or falsy (empty). -/
def manifestCmds (ps : SMap) (scripts : SMap) (action : String) :
    Except String (List (String × String)) :=
  let preAction := "pre" ++ action
  let pre := if hasKey ps preAction then [(preAction, jsGet ps preAction)] else []
  match mapGet scripts action with
  | none => Except.error "Script must exist"
  | some script =>
    if script = "" then Except.error "Script must exist"
    else
      let postAction := "post" ++ action
      let post := if hasKey ps postAction then [(postAction, jsGet ps postAction)] else []
      Except.ok (pre ++ [(action, script)] ++ post)

/-- Lines 102-106: the executable-only branch — a single step from the table,
with the same truthiness invariant. -/
def binCmds (scripts : SMap) (action : String) :
    Except String (List (String × String)) :=
  if hasKey scripts action then
    match mapGet scripts action with
    | none => Except.error "Script must exist"
    | some script =>
      if script = "" then Except.error "Script must exist"
      else Except.ok [(action, script)]
  else Except.ok []

/-- Lines 86-106: build up the list of commands for the requested action. -/
def collectCmds (pkgScripts : Option SMap) (scripts : SMap) (action : String) :
    Except String (List (String × String)) :=
  match pkgScripts with
  | some ps =>
    if hasKey ps action then manifestCmds ps scripts action
    else binCmds scripts action
  | none => binCmds scripts action

/-- The observable outcome of one `runCommand` invocation. -/
inductive RunOutcome where
  /-- The plan's steps were handed to the external executor, in order. -/
  | executed (steps : List (String × String))
  /-- The `env` built-in printed the computed execution environment. -/
  | envPrinted
  /-- A `MessageError` with the given message was thrown. -/
  | notFound (msg : String)
  /-- The `invariant(...)` assertion threw with the given message. -/
  | invariantViolation (msg : String)
  deriving DecidableEq

/-- The result of one `runCommand` invocation: its outcome, whether
`process.env.YARN_WRAP_OUTPUT` was assigned `'false'`, and the `(stage,
command)` steps actually passed to the external executor. -/
structure RunResult where
  outcome : RunOutcome
  wrapOutputSet : Bool
  executedSteps : List (String × String)
  deriving DecidableEq

/-- Models the external `puka` template `sh` applied as on line 113: the
command text is inserted unquoted, then each trailing argument is
shell-quoted and appended, space-separated; with no trailing arguments the
command is unchanged. -/
def shAppendArgs (cmd : String) (args : List String) : String :=
  if args.isEmpty then cmd
  else cmd ++ " " ++ String.intercalate " " (args.map quoteForShell)

/-- Lines 82-138, `runCommand`: `action` is `args.shift()` and `args` the
remaining trailing arguments. If the collected command list is nonempty, the
wrap-output toggle is set and every step runs in order, trailing arguments
attached only to steps whose stage equals the action (line 113); otherwise
the `env` built-in or the not-found error applies. -/
def runCommand (pkgScripts : Option SMap) (scripts : SMap)
    (action : String) (args : List String) : RunResult :=
  match collectCmds pkgScripts scripts action with
  | Except.error msg =>
    { outcome := RunOutcome.invariantViolation msg, wrapOutputSet := false, executedSteps := [] }
  | Except.ok cmds =>
    if cmds ≠ [] then
      let steps := cmds.map fun sc =>
        (sc.1, if sc.1 = action then shAppendArgs sc.2 args else sc.2)
      { outcome := RunOutcome.executed steps, wrapOutputSet := true, executedSteps := steps }
    else if action = "env" then
      { outcome := RunOutcome.envPrinted, wrapOutputSet := false, executedSteps := [] }
    else
      { outcome := RunOutcome.notFound (notFoundMessage scripts action),
        wrapOutputSet := false, executedSteps := [] }

/-- One observable reporter interaction of the no-argument fallback. -/
inductive ReportEvent where
  | errorMsg (key : String)
  | infoMsg (text : String)
  | possibleCommandsList (names : List String) (table : List (String × String))
  | promptOffered
  deriving DecidableEq

/-- Lines 151-157: the `printedCommands` loop, with its
`invariant(action, 'Action must exists')` truthiness check. -/
def printedCommands (scripts : SMap) : List String → Except String (List (String × String))
  | [] => Except.ok []
  | c :: cs =>
    match mapGet scripts c with
    | none => Except.error "Action must exists"
    | some a =>
      if a = "" then Except.error "Action must exists"
      else (printedCommands scripts cs).map (fun r => (c, a) :: r)

/-- Lines 142-168: the no-argument fallback. It reports the missing command,
then either the `binCommands` listing or its absence, then either the
manifest-script listing followed by an interactive prompt, or the
`noScriptsAvailable` message. (The `invariant` inside the `printedCommands`
loop is surfaced as an error; on that path the events already reported are
not modelled, which no theorem below relies on.) The interactive prompt is
the only path from which `runCommand` is ever re-entered. -/
def noArgsFallback (scripts : SMap) (binCommands pkgCommands : List String) :
    Except String (List ReportEvent) :=
  let ev := [ReportEvent.errorMsg "commandNotSpecified"]
  let ev := ev ++
    (if binCommands ≠ [] then
      [ReportEvent.infoMsg ("binCommands" ++ String.intercalate ", " binCommands)]
    else [ReportEvent.errorMsg "noBinAvailable"])
  match printedCommands scripts pkgCommands with
  | Except.error e => Except.error e
  | Except.ok printed =>
    if pkgCommands ≠ [] then
      Except.ok (ev ++
        [ReportEvent.infoMsg "possibleCommands",
         ReportEvent.possibleCommandsList pkgCommands printed,
         ReportEvent.promptOffered])
    else Except.ok (ev ++ [ReportEvent.errorMsg "noScriptsAvailable"])

/-! ### Basic lemmas about the JS map model -/

theorem mapGet_mapSet (m : SMap) (k v k' : String) :
    mapGet (mapSet m k v) k' = if k' = k then some v else mapGet m k' := by
  induction m with
  | nil =>
    by_cases h : k' = k
    · simp [mapSet, mapGet, h]
    · simp [mapSet, mapGet, h, Ne.symm h]
  | cons p ps ih =>
    simp only [mapSet]
    by_cases hpk : p.1 = k
    · rw [if_pos hpk]
      by_cases hk' : k' = k
      · simp [mapGet, hk']
      · have h1 : ¬(k = k') := fun hh => hk' hh.symm
        have h2 : ¬(p.1 = k') := by rw [hpk]; exact h1
        simp [mapGet, h1, h2, hk']
    · rw [if_neg hpk]
      by_cases hpk' : p.1 = k'
      · have h1 : ¬(k' = k) := fun hh => hpk (hpk'.trans hh)
        simp [mapGet, hpk', h1]
      · simp [mapGet, hpk', ih]

theorem mem_keys_mapSet (m : SMap) (k v a : String) :
    a ∈ (mapSet m k v).map Prod.fst ↔ a = k ∨ a ∈ m.map Prod.fst := by
  induction m with
  | nil => simp [mapSet]
  | cons p ps ih =>
    simp only [mapSet]
    by_cases hpk : p.1 = k
    · rw [if_pos hpk]
      simp only [List.map_cons, List.mem_cons]
      constructor
      · rintro (h | h)
        · exact Or.inl h
        · exact Or.inr (Or.inr h)
      · rintro (h | h | h)
        · exact Or.inl h
        · exact Or.inl (h.trans hpk)
        · exact Or.inr h
    · rw [if_neg hpk]
      simp only [List.map_cons, List.mem_cons, ih]
      tauto

theorem nodup_keys_mapSet (m : SMap) (k v : String)
    (h : (m.map Prod.fst).Nodup) : ((mapSet m k v).map Prod.fst).Nodup := by
  induction m with
  | nil => simp [mapSet]
  | cons p ps ih =>
    simp only [List.map_cons, List.nodup_cons] at h
    simp only [mapSet]
    by_cases hpk : p.1 = k
    · rw [if_pos hpk]
      simp only [List.map_cons, List.nodup_cons]
      exact ⟨hpk ▸ h.1, h.2⟩
    · rw [if_neg hpk]
      simp only [List.map_cons, List.nodup_cons]
      refine ⟨?_, ih h.2⟩
      intro hmem
      rcases (mem_keys_mapSet ps k v p.1).1 hmem with h1 | h1
      · exact hpk h1
      · exact h.1 h1

/-- Looking up after folding `mapSet` over a list of keys whose values are a
function of the key alone. -/
theorem mapGet_foldl_mapSet (g : String → String) (ks : List String) :
    ∀ (m : SMap) (name : String),
      mapGet (ks.foldl (fun m k => mapSet m k (g k)) m) name
        = if name ∈ ks then some (g name) else mapGet m name := by
  induction ks with
  | nil => simp
  | cons k ks ih =>
    intro m name
    rw [List.foldl_cons, ih]
    by_cases hks : name ∈ ks
    · simp [hks]
    · by_cases hk : name = k <;> simp [hks, hk, mapGet_mapSet]

theorem nodup_keys_foldl_mapSet (g : String → String) (ks : List String) :
    ∀ (m : SMap), (m.map Prod.fst).Nodup →
      (((ks.foldl (fun m k => mapSet m k (g k)) m)).map Prod.fst).Nodup := by
  induction ks with
  | nil => exact fun _ h => h
  | cons k ks ih =>
    intro m h
    exact ih _ (nodup_keys_mapSet _ _ _ h)

theorem mapGet_eq_some_of_mem_nodup (ps : SMap) (name cmd : String)
    (hnd : (ps.map Prod.fst).Nodup) (hmem : (name, cmd) ∈ ps) :
    mapGet ps name = some cmd := by
  induction ps with
  | nil => cases hmem
  | cons p ps ih =>
    simp only [List.map_cons, List.nodup_cons] at hnd
    rcases List.mem_cons.1 hmem with h | h
    · simp [mapGet, ← h]
    · have hne : p.1 ≠ name := by
        intro he
        exact hnd.1 (he ▸ (List.mem_map.2 ⟨(name, cmd), h, rfl⟩))
      simp [mapGet, hne, ih hnd.2 h]

theorem jsOrEmptyStr_eq (s : String) : jsOrEmptyStr s = s := by
  by_cases h : s = "" <;> simp [jsOrEmptyStr, h]

theorem mem_insertSorted (x y : String) (l : List String) :
    x ∈ insertSorted y l ↔ x = y ∨ x ∈ l := by
  induction l with
  | nil => simp [insertSorted]
  | cons z zs ih =>
    by_cases h : strLeJs y z = true
    · simp [insertSorted, h]
    · simp [insertSorted, h, ih]
      tauto

theorem mem_sortStrings (x : String) (l : List String) :
    x ∈ sortStrings l ↔ x ∈ l := by
  induction l with
  | nil => simp [sortStrings]
  | cons y ys ih =>
    simp only [sortStrings, List.foldr_cons] at *
    rw [mem_insertSorted, ih]
    simp

theorem pre_append_ne (a : String) : "pre" ++ a ≠ a := by
  intro h
  have hl := congrArg String.length h
  rw [String.length_append] at hl
  have h3 : ("pre" : String).length = 3 := rfl
  omega

theorem post_append_ne (a : String) : "post" ++ a ≠ a := by
  intro h
  have hl := congrArg String.length h
  rw [String.length_append] at hl
  have h4 : ("post" : String).length = 4 := rfl
  omega

/-! ### Projections of the table-construction folds -/

theorem foldl_scripts_proj (F : TableState → String → TableState)
    (G : SMap → String → SMap)
    (h : ∀ st k, (F st k).scripts = G st.scripts k) :
    ∀ (ks : List String) (st : TableState),
      (ks.foldl F st).scripts = ks.foldl G st.scripts := by
  intro ks
  induction ks with
  | nil => intro st; rfl
  | cons k ks ih =>
    intro st
    rw [List.foldl_cons, List.foldl_cons, ih (F st k), h st k]

theorem addManifestScripts_scripts (st : TableState) (ps : SMap) :
    (addManifestScripts st ps).scripts
      = (sortStrings (ps.map Prod.fst)).foldl
          (fun m k => mapSet m k (jsOrEmptyStr (jsGet ps k))) st.scripts :=
  foldl_scripts_proj _ _ (fun _ _ => rfl) _ _

theorem addBinDir_scripts (st : TableState) (d : BinDir) :
    (addBinDir st d).scripts
      = if d.dirExists then
          d.entries.foldl
            (fun m n => mapSet m n (quoteForShell (d.path ++ "/" ++ n))) st.scripts
        else st.scripts := by
  unfold addBinDir
  by_cases h : d.dirExists = true
  · rw [if_pos h, if_pos h]
    exact foldl_scripts_proj _ _ (fun _ _ => rfl) _ _
  · rw [if_neg h, if_neg h]

theorem mapGet_addBinDir (st : TableState) (d : BinDir) (name : String) :
    mapGet (addBinDir st d).scripts name
      = if d.dirExists = true ∧ name ∈ d.entries
          then some (quoteForShell (d.path ++ "/" ++ name))
        else mapGet st.scripts name := by
  rw [addBinDir_scripts]
  by_cases h : d.dirExists = true
  · rw [if_pos h]
    have hf := mapGet_foldl_mapSet
      (fun n => quoteForShell (d.path ++ "/" ++ n)) d.entries st.scripts name
    rw [hf]
    by_cases hm : name ∈ d.entries
    · rw [if_pos hm, if_pos ⟨h, hm⟩]
    · rw [if_neg hm, if_neg (fun hc => hm hc.2)]
  · rw [if_neg h, if_neg (fun hc => h hc.1)]

/-! ### The directory fold as a last-match lookup -/

/-- The last directory in iteration order that exists and contains `name`
(the one whose write survives in the `scripts` map). -/
def binFind (dirs : List BinDir) (name : String) : Option BinDir :=
  dirs.reverse.find? fun d => d.dirExists && d.entries.contains name

/-- The table value `name` has after the directory phase, if any. -/
def binValue (dirs : List BinDir) (name : String) : Option String :=
  (binFind dirs name).map fun d => quoteForShell (d.path ++ "/" ++ name)

theorem find?_singleton {α : Type} (p : α → Bool) (d : α) :
    List.find? p [d] = if p d then some d else none := by
  by_cases hp : p d = true <;> simp [List.find?, hp]

theorem binFind_cons (d : BinDir) (ds : List BinDir) (name : String) :
    binFind (d :: ds) name
      = (binFind ds name).or
          (if d.dirExists && d.entries.contains name then some d else none) := by
  unfold binFind
  rw [List.reverse_cons, List.find?_append, find?_singleton]

theorem mapGet_foldl_addBinDir (dirs : List BinDir) :
    ∀ (st : TableState) (name : String),
      mapGet (dirs.foldl addBinDir st).scripts name
        = (binValue dirs name).or (mapGet st.scripts name) := by
  induction dirs with
  | nil =>
    intro st name
    simp [binValue, binFind]
  | cons d ds ih =>
    intro st name
    rw [List.foldl_cons, ih (addBinDir st d) name, mapGet_addBinDir]
    cases hbf : binFind ds name with
    | some d' => simp [binValue, binFind_cons, hbf]
    | none =>
      by_cases hp : (d.dirExists && d.entries.contains name) = true
      · have hprop : d.dirExists = true ∧ name ∈ d.entries := by
          rw [Bool.and_eq_true] at hp
          exact ⟨hp.1, by simpa using hp.2⟩
        simp [binValue, binFind_cons, hbf, hp, hprop]
      · have hprop : ¬(d.dirExists = true ∧ name ∈ d.entries) := by
          rw [Bool.and_eq_true] at hp
          rintro ⟨h1, h2⟩
          exact hp ⟨h1, by simpa using h2⟩
        simp [binValue, binFind_cons, hbf, hp, hprop]

/-- The proviso under which the directory phase is order-independent: any
entry name two existing candidate directories share comes from directories
with the same path. -/
def compatibleDirs (dirs : List BinDir) : Prop :=
  ∀ d ∈ dirs, ∀ d' ∈ dirs, d.dirExists = true → d'.dirExists = true →
    ∀ name ∈ d.entries, name ∈ d'.entries → d.path = d'.path

theorem binValue_perm (dirs1 dirs2 : List BinDir) (name : String)
    (hcompat : compatibleDirs dirs1) (hperm : dirs1.Perm dirs2) :
    binValue dirs1 name = binValue dirs2 name := by
  cases h1 : binFind dirs1 name with
  | none =>
    have hall : ∀ d ∈ dirs1, ¬(d.dirExists && d.entries.contains name) = true := by
      have hres := List.find?_eq_none.1 h1
      intro d hd
      exact hres d (List.mem_reverse.2 hd)
    have h2 : binFind dirs2 name = none := by
      apply List.find?_eq_none.2
      intro d hd
      exact hall d (hperm.mem_iff.2 (List.mem_reverse.1 hd))
    simp [binValue, h1, h2]
  | some d =>
    have h1' : List.find? (fun d => d.dirExists && d.entries.contains name) dirs1.reverse
        = some d := h1
    have hd1 : d ∈ dirs1 := List.mem_reverse.1 (List.mem_of_find?_eq_some h1')
    have hpd0 := List.find?_some h1'
    have hpd : (d.dirExists && d.entries.contains name) = true := hpd0
    have hsome : (binFind dirs2 name).isSome := by
      rw [binFind, List.find?_isSome]
      exact ⟨d, List.mem_reverse.2 (hperm.mem_iff.1 hd1), hpd⟩
    cases h2 : binFind dirs2 name with
    | none => rw [h2] at hsome; simp at hsome
    | some d2 =>
      have h2' : List.find? (fun d => d.dirExists && d.entries.contains name) dirs2.reverse
          = some d2 := h2
      have hd2 : d2 ∈ dirs1 := hperm.mem_iff.2 (List.mem_reverse.1 (List.mem_of_find?_eq_some h2'))
      have hpd20 := List.find?_some h2'
      have hpd2 : (d2.dirExists && d2.entries.contains name) = true := hpd20
      rw [Bool.and_eq_true] at hpd hpd2
      have hm1 : name ∈ d.entries := by simpa using hpd.2
      have hm2 : name ∈ d2.entries := by simpa using hpd2.2
      have hpath := hcompat d hd1 d2 hd2 hpd.1 hpd2.1 name hm1 hm2
      simp [binValue, h1, h2, hpath]

/-! ### Lookup in the finished table -/

theorem mapGet_buildTable_none (binDirs : List BinDir) (name : String) :
    mapGet (buildTable binDirs none).scripts name = binValue binDirs name := by
  unfold buildTable
  rw [mapGet_foldl_addBinDir]
  simp [mapGet]

theorem mapGet_buildTable_some (binDirs : List BinDir) (ps : SMap) (name : String) :
    mapGet (buildTable binDirs (some ps)).scripts name
      = if name ∈ ps.map Prod.fst then some (jsOrEmptyStr (jsGet ps name))
        else binValue binDirs name := by
  unfold buildTable
  rw [addManifestScripts_scripts,
    mapGet_foldl_mapSet (fun k => jsOrEmptyStr (jsGet ps k)) _ _ name,
    mapGet_foldl_addBinDir]
  simp only [mem_sortStrings, mapGet, Option.or_none]

/-! ### Remaining helper lemmas for the claims -/

theorem nodup_keys_addBinDir (st : TableState) (d : BinDir)
    (h : (st.scripts.map Prod.fst).Nodup) :
    ((addBinDir st d).scripts.map Prod.fst).Nodup := by
  rw [addBinDir_scripts]
  by_cases hd : d.dirExists = true
  · rw [if_pos hd]
    exact nodup_keys_foldl_mapSet _ _ _ h
  · rw [if_neg hd]
    exact h

theorem nodup_keys_foldl_addBinDir (dirs : List BinDir) :
    ∀ st : TableState, (st.scripts.map Prod.fst).Nodup →
      ((dirs.foldl addBinDir st).scripts.map Prod.fst).Nodup := by
  induction dirs with
  | nil => exact fun _ h => h
  | cons d ds ih =>
    intro st h
    exact ih _ (nodup_keys_addBinDir st d h)

theorem nodup_keys_buildTable (binDirs : List BinDir) (pkgScripts : Option SMap) :
    ((buildTable binDirs pkgScripts).scripts.map Prod.fst).Nodup := by
  cases pkgScripts with
  | none =>
    show ((binDirs.foldl addBinDir
      { scripts := [], binCommands := [], pkgCommands := [] }).scripts.map Prod.fst).Nodup
    exact nodup_keys_foldl_addBinDir _ _ (by simp)
  | some ps =>
    show ((addManifestScripts (binDirs.foldl addBinDir
      { scripts := [], binCommands := [], pkgCommands := [] }) ps).scripts.map Prod.fst).Nodup
    rw [addManifestScripts_scripts]
    exact nodup_keys_foldl_mapSet _ _ _ (nodup_keys_foldl_addBinDir _ _ (by simp))

/-- The manifest branch never produces an empty command list: it either
throws the invariant or includes at least the main step. -/
theorem manifestCmds_ne_ok_nil (ps scripts : SMap) (action : String) :
    manifestCmds ps scripts action ≠ Except.ok [] := by
  unfold manifestCmds
  cases hm : mapGet scripts action with
  | none => simp
  | some script =>
    by_cases hs : script = "" <;> simp [hs]

/-- The executable branch produces an empty command list exactly when the
table has no entry for the action. -/
theorem binCmds_ok_nil_iff (scripts : SMap) (action : String) :
    binCmds scripts action = Except.ok [] ↔ hasKey scripts action = false := by
  unfold binCmds
  by_cases h : hasKey scripts action = true
  · rw [if_pos h]
    cases hm : mapGet scripts action with
    | none => simp [h]
    | some script => by_cases hs : script = "" <;> simp [hs, h]
  · simp [h]

/-- The collected command list is empty exactly when the action matches
neither a manifest script key nor a table entry. -/
theorem collectCmds_ok_nil_iff (pkgScripts : Option SMap) (scripts : SMap) (action : String) :
    collectCmds pkgScripts scripts action = Except.ok [] ↔
      (∀ ps, pkgScripts = some ps → hasKey ps action = false) ∧
        hasKey scripts action = false := by
  cases pkgScripts with
  | none => simp [collectCmds, binCmds_ok_nil_iff]
  | some ps =>
    by_cases h : hasKey ps action = true
    · constructor
      · intro hc
        exact absurd (by simpa [collectCmds, h] using hc)
          (manifestCmds_ne_ok_nil ps scripts action)
      · rintro ⟨hps, _⟩
        exact absurd (hps ps rfl) (by simp [h])
    · have h' : hasKey ps action = false := by
        cases hb : hasKey ps action
        · rfl
        · exact absurd hb h
      constructor
      · intro hc
        refine ⟨?_, (binCmds_ok_nil_iff scripts action).1 ?_⟩
        · rintro ps' hps'
          injection hps' with he
          exact he ▸ h'
        · simpa [collectCmds, h] using hc
      · rintro ⟨_, hs⟩
        simp [collectCmds, h, (binCmds_ok_nil_iff scripts action).2 hs]

/-! ### Concrete fixtures used by witnesses and counterexamples -/

/-- The spec's worked manifest: build/prebuild/postbuild. -/
def manifestBuild : SMap := [("build", "compile"), ("prebuild", "clean"), ("postbuild", "notify")]

/-- A single manifest script. -/
def psBuild : SMap := [("build", "tsc")]

/-- Two manifest scripts, as in the spec's suggestion example. -/
def psBuildTest : SMap := [("build", "tsc"), ("test", "jest")]

/-- A manifest that declares a script named `env`. -/
def psEnv : SMap := [("env", "echo hi")]

/-- A manifest whose only script has an empty body. -/
def psEmpty : SMap := [("empty", "")]

/-- Existing directory `/a` exposing executable `x`. -/
def dirA : BinDir := { path := "/a", dirExists := true, entries := ["x"] }

/-- Existing directory `/b` exposing executable `x` as well. -/
def dirB : BinDir := { path := "/b", dirExists := true, entries := ["x"] }

/-- Existing directory `/c` exposing executable `y`. -/
def dirC : BinDir := { path := "/c", dirExists := true, entries := ["y"] }

/-! ### The claims -/

/-- C1: for a manifest-declared action that resolves (its table entry is a
nonempty string, cf. C6), the execution plan is exactly
`[pre<action> if declared, the main step, post<action> if declared]` in that
order, absent hooks omitted, and the trailing arguments are appended only to
the main step — the pre/post hook commands are passed through verbatim. -/
theorem runCommand_manifest_plan
    (ps scripts : SMap) (action : String) (args : List String) (script : String)
    (hact : hasKey ps action = true)
    (hscript : mapGet scripts action = some script)
    (hne : script ≠ "") :
    runCommand (some ps) scripts action args =
      { outcome := RunOutcome.executed
          ((if hasKey ps ("pre" ++ action) then
              [("pre" ++ action, jsGet ps ("pre" ++ action))] else [])
            ++ [(action, shAppendArgs script args)]
            ++ (if hasKey ps ("post" ++ action) then
              [("post" ++ action, jsGet ps ("post" ++ action))] else [])),
        wrapOutputSet := true,
        executedSteps :=
          ((if hasKey ps ("pre" ++ action) then
              [("pre" ++ action, jsGet ps ("pre" ++ action))] else [])
            ++ [(action, shAppendArgs script args)]
            ++ (if hasKey ps ("post" ++ action) then
              [("post" ++ action, jsGet ps ("post" ++ action))] else [])) } := by
  have hcol : collectCmds (some ps) scripts action
      = Except.ok
          ((if hasKey ps ("pre" ++ action) then
              [("pre" ++ action, jsGet ps ("pre" ++ action))] else [])
            ++ [(action, script)]
            ++ (if hasKey ps ("post" ++ action) then
              [("post" ++ action, jsGet ps ("post" ++ action))] else [])) := by
    simp [collectCmds, manifestCmds, hact, hscript, hne]
  have hpre := pre_append_ne action
  have hpost := post_append_ne action
  by_cases hp : hasKey ps ("pre" ++ action) = true <;>
    by_cases hq : hasKey ps ("post" ++ action) = true <;>
      simp [runCommand, hcol, hp, hq, hpre, hpost]

/-- C1 witness: the spec's worked example — manifest
`build/prebuild/postbuild`, action `build`, trailing args `["--fast"]`. -/
theorem runCommand_manifest_plan_witness :
    runCommand (some manifestBuild) (buildTable [] (some manifestBuild)).scripts
        "build" ["--fast"]
      = { outcome := RunOutcome.executed
            [("prebuild", "clean"), ("build", "compile --fast"), ("postbuild", "notify")],
          wrapOutputSet := true,
          executedSteps :=
            [("prebuild", "clean"), ("build", "compile --fast"), ("postbuild", "notify")] } := by
  rw [runCommand_manifest_plan manifestBuild (buildTable [] (some manifestBuild)).scripts
    "build" ["--fast"] "compile" (by decide) (by decide) (by decide)]
  decide

/-- C2: for a manifest with duplicate-free keys, the constructed ScriptTable
has unique keys, and any name that is both an entry of an existing executable
directory and a manifest script key maps to the manifest's command text. -/
theorem buildTable_unique_keys_manifest_wins
    (binDirs : List BinDir) (ps : SMap)
    (hnd : (ps.map Prod.fst).Nodup) :
    ((buildTable binDirs (some ps)).scripts.map Prod.fst).Nodup ∧
    (∀ name cmd d, d ∈ binDirs → d.dirExists = true → name ∈ d.entries →
      (name, cmd) ∈ ps →
      mapGet (buildTable binDirs (some ps)).scripts name = some cmd) := by
  refine ⟨nodup_keys_buildTable binDirs (some ps), ?_⟩
  intro name cmd d _ _ _ hmem
  rw [mapGet_buildTable_some]
  have hkey : name ∈ ps.map Prod.fst := List.mem_map.2 ⟨(name, cmd), hmem, rfl⟩
  rw [if_pos hkey]
  have hlook : mapGet ps name = some cmd := mapGet_eq_some_of_mem_nodup ps name cmd hnd hmem
  simp [jsGet, hlook, jsOrEmptyStr_eq]

/-- C2 witness: directory `/a` exposes `x` and the manifest also declares
script `x`; the table maps `x` to the manifest's text and keys stay unique. -/
theorem buildTable_unique_keys_manifest_wins_witness :
    ((buildTable [dirA] (some [("x", "run it")])).scripts.map Prod.fst).Nodup ∧
    mapGet (buildTable [dirA] (some [("x", "run it")])).scripts "x" = some "run it" :=
  ⟨(buildTable_unique_keys_manifest_wins [dirA] [("x", "run it")] (by decide)).1,
    (buildTable_unique_keys_manifest_wins [dirA] [("x", "run it")] (by decide)).2
      "x" "run it" dirA (by decide) (by decide) (by decide) (by decide)⟩

/-- C3 counterexample: two distinct existing directories both expose `x`
and no manifest overwrites it; swapping their iteration order changes the
final table's value at `x` (the last-iterated directory's quoted path wins),
refuting order-independence as claimed. -/
theorem buildTable_order_dependent_cex :
    [dirA, dirB].Perm [dirB, dirA] ∧
    mapGet (buildTable [dirA, dirB] none).scripts "x"
      ≠ mapGet (buildTable [dirB, dirA] none).scripts "x" := by
  constructor
  · exact List.Perm.swap dirB dirA []
  · decide

/-- C3 (amended): permuting the executable directories never changes the
final table's value at a manifest script key; and it changes nothing at all
provided any entry name shared by two existing directories comes from
directories with the same path (in particular when no two distinct
directories share an entry name). -/
theorem buildTable_order_independent
    (dirs1 dirs2 : List BinDir) (pkgScripts : Option SMap)
    (hperm : dirs1.Perm dirs2) :
    (∀ ps, pkgScripts = some ps → ∀ name ∈ ps.map Prod.fst,
      mapGet (buildTable dirs1 pkgScripts).scripts name
        = mapGet (buildTable dirs2 pkgScripts).scripts name) ∧
    (compatibleDirs dirs1 →
      ∀ name, mapGet (buildTable dirs1 pkgScripts).scripts name
        = mapGet (buildTable dirs2 pkgScripts).scripts name) := by
  constructor
  · rintro ps rfl name hname
    rw [mapGet_buildTable_some, mapGet_buildTable_some, if_pos hname, if_pos hname]
  · intro hcompat name
    cases pkgScripts with
    | none =>
      rw [mapGet_buildTable_none, mapGet_buildTable_none,
        binValue_perm dirs1 dirs2 name hcompat hperm]
    | some ps =>
      rw [mapGet_buildTable_some, mapGet_buildTable_some]
      by_cases hm : name ∈ ps.map Prod.fst
      · rw [if_pos hm, if_pos hm]
      · rw [if_neg hm, if_neg hm, binValue_perm dirs1 dirs2 name hcompat hperm]

/-- C3 witness: `/a` exposes `x`, `/c` exposes `y`, manifest declares `b`;
swapping the two directories changes neither the value at the bin name `y`
nor at the manifest key `b`. -/
theorem buildTable_order_independent_witness :
    mapGet (buildTable [dirA, dirC] (some psBuild)).scripts "y"
      = mapGet (buildTable [dirC, dirA] (some psBuild)).scripts "y" ∧
    mapGet (buildTable [dirA, dirC] (some psBuild)).scripts "build"
      = mapGet (buildTable [dirC, dirA] (some psBuild)).scripts "build" := by
  have hcompat : compatibleDirs [dirA, dirC] := by
    intro d hd d' hd' _ _ name hn1 hn2
    simp only [List.mem_cons, List.not_mem_nil, or_false] at hd hd'
    rcases hd with rfl | rfl <;> rcases hd' with rfl | rfl <;>
      simp_all [dirA, dirC]
  exact ⟨(buildTable_order_independent [dirA, dirC] [dirC, dirA] (some psBuild)
      (List.Perm.swap dirC dirA [])).2 hcompat "y",
    (buildTable_order_independent [dirA, dirC] [dirC, dirA] (some psBuild)
      (List.Perm.swap dirC dirA [])).1 psBuild rfl "build" (by decide)⟩

/-- C4: with manifest scripts `build`/`test`, attempting `buld` does NOT
surface the suggestion `build`: the source's suggestion loop is a `for..in`
over a JS `Map` and enumerates nothing, so the error message carries no
"Did you mean" addendum even though the intended SuggestionEngine (edit
distance < 2 over the table's names) would return `build`. -/
theorem runCommand_buld_no_did_you_mean :
    (runCommand (some psBuildTest) (buildTable [] (some psBuildTest)).scripts "buld" []).outcome
      = RunOutcome.notFound "Command \x22buld\x22 not found." ∧
    computeSuggestion (buildTable [] (some psBuildTest)).scripts "buld" = none ∧
    suggestionIntended (buildTable [] (some psBuildTest)).scripts "buld" = some "build" ∧
    leven "build" "buld" = 1 := by decide

/-- C5 counterexample: with a manifest script named `env`, resolving `env`
executes that script instead of printing the environment, while without it
the built-in prints the environment — the behavior is not identical. -/
theorem runCommand_env_shadowed_cex :
    (runCommand (some psEnv) (buildTable [] (some psEnv)).scripts "env" []).outcome
      = RunOutcome.executed [("env", "echo hi")] ∧
    (runCommand none (buildTable [] none).scripts "env" []).outcome
      = RunOutcome.envPrinted ∧
    (runCommand (some psEnv) (buildTable [] (some psEnv)).scripts "env" []).outcome
      ≠ (runCommand none (buildTable [] none).scripts "env" []).outcome := by
  refine ⟨by decide, by decide, by decide⟩

/-- C5 (amended): resolving the action `env` prints the computed execution
environment exactly when `env` matches neither a manifest script key nor a
table entry, and in that case nothing is executed and the wrap-output toggle
is untouched. When an entry named `env` does exist, the built-in is shadowed
and resolution takes the ordinary script path instead — executing its plan,
or, for an empty-bodied manifest script, failing the invariant (cf. C6) —
so the behavior is not independent of such entries. -/
theorem runCommand_env_builtin
    (pkgScripts : Option SMap) (scripts : SMap) (args : List String) :
    ((runCommand pkgScripts scripts "env" args).outcome = RunOutcome.envPrinted ↔
      (∀ ps, pkgScripts = some ps → hasKey ps "env" = false) ∧
        hasKey scripts "env" = false) ∧
    ((runCommand pkgScripts scripts "env" args).outcome = RunOutcome.envPrinted →
      runCommand pkgScripts scripts "env" args
        = { outcome := RunOutcome.envPrinted, wrapOutputSet := false,
            executedSteps := [] }) := by
  have hiff : (runCommand pkgScripts scripts "env" args).outcome = RunOutcome.envPrinted ↔
      collectCmds pkgScripts scripts "env" = Except.ok [] := by
    cases hcol : collectCmds pkgScripts scripts "env" with
    | error e => simp [runCommand, hcol]
    | ok cmds =>
      by_cases hne : cmds = []
      · subst hne
        simp [runCommand, hcol]
      · simp [runCommand, hcol, hne]
  have hres : collectCmds pkgScripts scripts "env" = Except.ok [] →
      runCommand pkgScripts scripts "env" args
        = { outcome := RunOutcome.envPrinted, wrapOutputSet := false,
            executedSteps := [] } := by
    intro hcol
    simp [runCommand, hcol]
  exact ⟨hiff.trans (collectCmds_ok_nil_iff pkgScripts scripts "env"),
    fun h => hres (hiff.1 h)⟩

/-- C5 witness: with no manifest and an empty table, `env` prints the
environment, executes nothing, and leaves the wrap-output toggle untouched. -/
theorem runCommand_env_builtin_witness :
    runCommand none [] "env" []
      = { outcome := RunOutcome.envPrinted, wrapOutputSet := false, executedSteps := [] } :=
  (runCommand_env_builtin none [] []).2
    ((runCommand_env_builtin none [] []).1.2 ⟨fun _ h => Option.noConfusion h, rfl⟩)

/-- C6: a manifest script with an empty body IS inserted into the table, but
resolving it does not succeed: `invariant(script, 'Script must exist')`
tests truthiness, and the empty string is falsy, so the assertion fires for
this manifest-declared action. -/
theorem runCommand_empty_script_invariant_fires :
    mapGet (buildTable [] (some psEmpty)).scripts "empty" = some "" ∧
    hasKey psEmpty "empty" = true ∧
    (runCommand (some psEmpty) (buildTable [] (some psEmpty)).scripts "empty" []).outcome
      = RunOutcome.invariantViolation "Script must exist" := by decide

/-- C7: resolving `buld` against manifest `{build}` raises the not-found
error whose message names the attempted action but carries no "did you mean"
addendum, even though a candidate within edit distance 1 exists — the
suggestion computation (a `for..in` over a JS `Map`) never finds it. -/
theorem runCommand_notfound_message_no_addendum :
    (runCommand (some psBuild) (buildTable [] (some psBuild)).scripts "buld" []).outcome
      = RunOutcome.notFound "Command \x22buld\x22 not found." ∧
    leven "build" "buld" < 2 ∧
    suggestionIntended (buildTable [] (some psBuild)).scripts "buld" = some "build" := by
  decide

/-- C8: with no action, an empty manifest-script set and a nonempty
executable set, the fallback reports the missing command, lists the
executables, reports that no scripts are available, and never offers the
interactive prompt (the prompt being the only path that executes anything). -/
theorem noArgsFallback_empty_scripts
    (scripts : SMap) (binCommands : List String)
    (hbin : binCommands ≠ []) :
    noArgsFallback scripts binCommands []
      = Except.ok [ReportEvent.errorMsg "commandNotSpecified",
          ReportEvent.infoMsg ("binCommands" ++ String.intercalate ", " binCommands),
          ReportEvent.errorMsg "noScriptsAvailable"] ∧
    ∀ evs, noArgsFallback scripts binCommands [] = Except.ok evs →
      ReportEvent.promptOffered ∉ evs := by
  have hmain : noArgsFallback scripts binCommands []
      = Except.ok [ReportEvent.errorMsg "commandNotSpecified",
          ReportEvent.infoMsg ("binCommands" ++ String.intercalate ", " binCommands),
          ReportEvent.errorMsg "noScriptsAvailable"] := by
    simp [noArgsFallback, printedCommands, hbin]
  refine ⟨hmain, ?_⟩
  intro evs hevs
  rw [hmain] at hevs
  cases hevs
  simp

/-- C8 witness: a single executable `lint` and no manifest scripts. -/
theorem noArgsFallback_empty_scripts_witness :
    noArgsFallback [] ["lint"] []
      = Except.ok [ReportEvent.errorMsg "commandNotSpecified",
          ReportEvent.infoMsg "binCommandslint",
          ReportEvent.errorMsg "noScriptsAvailable"] := by
  rw [(noArgsFallback_empty_scripts [] ["lint"] (by decide)).1]
  rfl

/-- C9: a not-found outcome is atomic — whenever `runCommand` ends in the
CommandNotFound error, no step was handed to the executor and the
wrap-output toggle was never touched. -/
theorem runCommand_notFound_atomic
    (pkgScripts : Option SMap) (scripts : SMap) (action : String) (args : List String)
    (msg : String)
    (h : (runCommand pkgScripts scripts action args).outcome = RunOutcome.notFound msg) :
    (runCommand pkgScripts scripts action args).executedSteps = [] ∧
    (runCommand pkgScripts scripts action args).wrapOutputSet = false := by
  cases hcol : collectCmds pkgScripts scripts action with
  | error e => simp [runCommand, hcol]
  | ok cmds =>
    by_cases hne : cmds = []
    · by_cases henv : action = "env"
      · subst henv
        simp [runCommand, hcol, hne] at h
      · simp [runCommand, hcol, hne, henv]
    · simp [runCommand, hcol, hne] at h

/-- C9 witness: resolving `nope` against an empty table. -/
theorem runCommand_notFound_atomic_witness :
    (runCommand none [] "nope" []).executedSteps = [] ∧
    (runCommand none [] "nope" []).wrapOutputSet = false :=
  runCommand_notFound_atomic none [] "nope" [] "Command \x22nope\x22 not found." (by decide)

/-- C10: the wrap-output toggle is assigned `'false'` exactly when the
resolved plan is nonempty and executed; for the `env` built-in, the
not-found error and the invariant failure it is left untouched. -/
theorem runCommand_wrap_flag
    (pkgScripts : Option SMap) (scripts : SMap) (action : String) (args : List String) :
    (runCommand pkgScripts scripts action args).wrapOutputSet = true ↔
      ∃ steps, (runCommand pkgScripts scripts action args).outcome
          = RunOutcome.executed steps ∧ steps ≠ [] := by
  cases hcol : collectCmds pkgScripts scripts action with
  | error e => simp [runCommand, hcol]
  | ok cmds =>
    by_cases hne : cmds = []
    · by_cases henv : action = "env"
      · subst henv
        simp [runCommand, hcol, hne]
      · simp [runCommand, hcol, hne, henv]
    · have hmap : (cmds.map fun sc =>
          (sc.1, if sc.1 = action then shAppendArgs sc.2 args else sc.2)) ≠ [] := by
        simpa using hne
      constructor
      · intro _
        exact ⟨cmds.map fun sc =>
            (sc.1, if sc.1 = action then shAppendArgs sc.2 args else sc.2),
          by simp [runCommand, hcol, hne], hmap⟩
      · intro _
        simp [runCommand, hcol, hne]

/-- C10 witness: a resolved one-step plan sets the toggle. -/
theorem runCommand_wrap_flag_witness :
    (runCommand (some psBuild) (buildTable [] (some psBuild)).scripts "build" []).wrapOutputSet
      = true :=
  (runCommand_wrap_flag (some psBuild) (buildTable [] (some psBuild)).scripts "build" []).2
    ⟨[("build", "tsc")], by decide, by decide⟩

end YarnRun
